import Mathlib

/-!
Shallow embedding of the C++ incremental parse orchestrator in
`src/plugins/cpp/parser/src/cppparser.cpp` (class `cc::parser::CppParser`),
together with proofs about it.  File identifiers and graph-node identifiers
are natural numbers; the persistent store's row sets are association lists.
Strings are Lean `String`s, manipulated through their character lists so that
every definition is executable.
-/

/-! ## String and path primitives (boost::filesystem / std helpers) -/

/-- Models C `::tolower` (ASCII case folding, applied per character by
`std::transform` in `CppParser::isSourceFile`). -/
def cLower (c : Char) : Char :=
  if 'A' ≤ c ∧ c ≤ 'Z' then Char.ofNat (c.toNat + 32) else c

/-- Lowercase every character of a string, as the `std::transform` call in
`CppParser::isSourceFile` does. -/
def lowerStr (s : String) : String :=
  String.mk (s.toList.map cLower)

/-- The characters after the last path separator: the `filename()` component
a `boost::filesystem::path` exposes (POSIX separators). -/
def afterLastSlash (l : List Char) : List Char :=
  (l.reverse.takeWhile (fun c => c ≠ '/')).reverse

/-- Extension of a filename component, as `boost::filesystem::extension`
computes it: empty for the special `.` and `..` names and for dot-free
names, otherwise the substring from the rightmost dot (dot included). -/
def extFromFilename (f : List Char) : List Char :=
  if f = ['.'] ∨ f = ['.', '.'] then []
  else if '.' ∈ f then '.' :: (f.reverse.takeWhile (fun c => c ≠ '.')).reverse
  else []

/-- Models `boost::filesystem::extension` on a whole path string. -/
def pathExtension (s : String) : String :=
  String.mk (extFromFilename (afterLastSlash s.toList))

/-- Boolean string-prefix test (models `std::string::find(pre) == 0` and is
also used for the POSIX absolute-path test). -/
def strStartsWith (s pre : String) : Bool :=
  pre.toList.isPrefixOf s.toList

/-- Models `boost::filesystem::absolute(arg, dir).native()` for POSIX paths:
an argument that already starts with the separator is returned as is,
otherwise it is attached under the base directory. -/
def absolutePath (dir arg : String) : String :=
  if strStartsWith arg "/" then arg else dir ++ "/" ++ arg

/-- Characters of the words joined by single spaces, modelling
`boost::algorithm::join(words, " ")`. -/
def joinSpaceChars : List (List Char) → List Char
  | [] => []
  | [w] => w
  | w :: ws => w ++ ' ' :: joinSpaceChars ws

/-- Models `boost::algorithm::join(command_.CommandLine, " ")`. -/
def joinSpace (words : List String) : String :=
  String.mk (joinSpaceChars (words.map String.toList))

/-- Boolean membership in a list of strings (models the `std::find` /
`count` idioms of the source on string containers). -/
def memStr (x : String) : List String → Bool
  | [] => false
  | y :: ys => if y = x then true else memStr x ys

/-! ## Compile commands and `CppParser::extractInputOutputs` -/

/-- A `clang::tooling::CompileCommand`: working directory, argument list and
primary file name. -/
structure CompileCommand where
  Directory : String
  CommandLine : List String
  Filename : String
deriving DecidableEq, Repr

/-- The extension list of `CppParser::isSourceFile`. -/
def cppExts : List String :=
  [".c", ".cc", ".cpp", ".cxx", ".o", ".so", ".a"]

/-- Models `CppParser::isSourceFile`: the extension is lowercased and then
looked up in `cppExts`. -/
def isSourceFile (file : String) : Bool :=
  memStr (lowerStr (pathExtension file)) cppExts

/-- Models `CppParser::isNonSourceFlag`: arguments beginning with the
linker pass-through prefix are not inputs. -/
def isNonSourceFlag (arg : String) : Bool :=
  strStartsWith arg "-Wl,"

/-- The scanner state of `CppParser::extractInputOutputs`
(`enum State { None, OParam }`). -/
inductive ScanState where
  | None
  | OParam
deriving DecidableEq, Repr

/-- Accumulator of the argument scan in `CppParser::extractInputOutputs`:
the `hasCParam` flag, the `sources` set, the `output` string and the
scanner state. -/
structure ScanAcc where
  hasCParam : Bool
  sources : List String
  output : String
  state : ScanState
deriving DecidableEq, Repr

/-- Insertion into the `sources` set (`std::unordered_set::insert`): a
duplicate is dropped. -/
def insertSource (l : List String) (s : String) : List String :=
  if memStr s l then l else l ++ [s]

/-- One iteration of the argument loop of `CppParser::extractInputOutputs`. -/
def scanStep (dir : String) (acc : ScanAcc) (arg : String) : ScanAcc :=
  match acc.state with
  | ScanState.OParam =>
    { acc with output := absolutePath dir arg, state := ScanState.None }
  | ScanState.None =>
    if isSourceFile arg && !isNonSourceFlag arg then
      { acc with sources := insertSource acc.sources (absolutePath dir arg) }
    else if arg = "-c" then { acc with hasCParam := true }
    else if arg = "-o" then { acc with state := ScanState.OParam }
    else acc

/-- The whole argument scan of `CppParser::extractInputOutputs`. -/
def scanArgs (dir : String) (args : List String) : ScanAcc :=
  args.foldl (scanStep dir) ⟨false, [], "", ScanState.None⟩

/-- The derived per-input object name of `CppParser::extractInputOutputs`:
`src.substr(0, src.size() - extension.size() - 1) + ".o"` (note the extra
`- 1`, which is applied to absolute paths only, so the natural subtraction
never clips differently from `size_t`). -/
def chopExtAddO (src : String) : String :=
  String.mk (src.toList.take (src.toList.length - (pathExtension src).toList.length - 1)) ++ ".o"

/-- Models `CppParser::extractInputOutputs` as the association list of the
`inToOut` map (keys are the distinct members of `sources`). -/
def extractInputOutputs (command : CompileCommand) : List (String × String) :=
  let acc := scanArgs command.Directory command.CommandLine
  if acc.output = "" && acc.hasCParam then
    acc.sources.map (fun src => (src, chopExtAddO src))
  else
    let output := if acc.output = "" then command.Directory ++ "/a.out" else acc.output
    acc.sources.map (fun src => (src, output))

/-! ## Incremental status and the `markAsModified` cascade -/

/-- The source's `IncrementalStatus` enumeration. -/
inductive IncrementalStatus where
  | MODIFIED
  | ADDED
  | DELETED
deriving DecidableEq, Repr

/-- The `_fileStatus` map of `CppParser`, keyed by the file (the store keys a
`model::File` by its unique path and by its unique id; the embedding uses a
single natural-number identifier for both). -/
abbrev StatusMap := List (Nat × IncrementalStatus)

/-- Lookup in `_fileStatus` (`std::map::count` / iteration). -/
def statusOf : StatusMap → Nat → Option IncrementalStatus
  | [], _ => none
  | (k, s) :: rest, f => if k = f then some s else statusOf rest f

/-- Models `std::map::insert`: a key that is already present keeps its old
value. -/
def insertStatus (st : StatusMap) (f : Nat) (s : IncrementalStatus) : StatusMap :=
  if (statusOf st f).isSome then st else (f, s) :: st

/-- A `model::CppHeaderInclusion` table: pairs `(includer, included)`. -/
abbrev InclusionGraph := List (Nat × Nat)

/-- The includers of a file: the query
`odb::query<CppHeaderInclusion>::included == file_.id` of
`CppParser::markAsModified`, projected to the `includer` side. -/
def includersOf (g : InclusionGraph) (f : Nat) : List Nat :=
  (g.filter (fun e => e.2 = f)).map Prod.fst

/-- Every file id mentioned by the inclusion table. -/
def graphNodes (g : InclusionGraph) : Finset Nat :=
  (g.map Prod.fst).toFinset ∪ (g.map Prod.snd).toFinset

/-- The keys of a status map. -/
def statusKeys (st : StatusMap) : Finset Nat :=
  (st.map Prod.fst).toFinset

/-- Models `CppParser::markAsModified` with the recursion stack made
explicit: the head of `pending` plays the role of the current `file_`, and
the recursive calls on the includers become the extended work list.  A file
that is already classified is skipped; otherwise it is classified MODIFIED
and all its includers are processed in turn, exactly as the recursive
source does. -/
def markGo (g : InclusionGraph) (pending : List Nat) (st : StatusMap) : StatusMap :=
  match pending with
  | [] => st
  | f :: rest =>
    if hclass : (statusOf st f).isSome then
      markGo g rest st
    else
      markGo g (includersOf g f ++ rest) ((f, IncrementalStatus.MODIFIED) :: st)
termination_by (((pending.toFinset ∪ graphNodes g) \ statusKeys st).card, pending.length)
decreasing_by
· have hsub : ((rest.toFinset ∪ graphNodes g) \ statusKeys st)
      ⊆ (((f :: rest).toFinset ∪ graphNodes g) \ statusKeys st) := by
    refine Finset.sdiff_subset_sdiff ?_ (Finset.Subset.refl _)
    refine Finset.union_subset_union ?_ (Finset.Subset.refl _)
    intro x hx
    simp only [List.toFinset_cons, Finset.mem_insert]
    exact Or.inr hx
  rcases lt_or_eq_of_le (Finset.card_le_card hsub) with hlt | heq
  · exact Prod.Lex.left _ _ hlt
  · rw [Prod.lex_def]
    exact Or.inr ⟨heq, by simp⟩
· have hne : statusOf st f = none := Option.not_isSome_iff_eq_none.mp hclass
  have hnotkey : f ∉ statusKeys st := by
    have key : ∀ t : StatusMap, statusOf t f = none → f ∉ statusKeys t := by
      intro t
      induction t with
      | nil => intro _ hmem; simp [statusKeys] at hmem
      | cons a rest ih =>
        rcases a with ⟨k, v⟩
        intro h hmem
        by_cases hk : k = f
        · simp [statusOf, hk] at h
        · simp only [statusOf, if_neg hk] at h
          simp only [statusKeys, List.map_cons, List.toFinset_cons,
            Finset.mem_insert] at hmem
          rcases hmem with h1 | h1
          · exact hk h1.symm
          · exact ih h (by simpa [statusKeys] using h1)
    exact key st hne
  have hfB : f ∈ ((f :: rest).toFinset ∪ graphNodes g) \ statusKeys st := by
    refine Finset.mem_sdiff.mpr ⟨?_, hnotkey⟩
    exact Finset.mem_union_left _ (by simp)
  have hsub : (((includersOf g f ++ rest).toFinset ∪ graphNodes g)
        \ statusKeys ((f, IncrementalStatus.MODIFIED) :: st))
      ⊆ ((((f :: rest).toFinset ∪ graphNodes g) \ statusKeys st).erase f) := by
    intro x hx
    rcases Finset.mem_sdiff.mp hx with ⟨hxin, hxkeys⟩
    have hkeys2 : statusKeys ((f, IncrementalStatus.MODIFIED) :: st)
        = insert f (statusKeys st) := by simp [statusKeys]
    rw [hkeys2] at hxkeys
    have hxf : x ≠ f := fun h => hxkeys (by simp [h])
    have hxk : x ∉ statusKeys st := fun h => hxkeys (Finset.mem_insert_of_mem h)
    refine Finset.mem_erase.mpr ⟨hxf, Finset.mem_sdiff.mpr ⟨?_, hxk⟩⟩
    rcases Finset.mem_union.mp hxin with h1 | h1
    · rw [List.mem_toFinset, List.mem_append] at h1
      rcases h1 with h2 | h2
      · have hxg : (x, f) ∈ g := by simpa [includersOf] using h2
        refine Finset.mem_union_right _ (Finset.mem_union_left _ ?_)
        simp only [List.mem_toFinset, List.mem_map]
        exact ⟨(x, f), hxg, rfl⟩
      · exact Finset.mem_union_left _ (by simp [h2])
    · exact Finset.mem_union_right _ h1
  have hlt : (((includersOf g f ++ rest).toFinset ∪ graphNodes g)
        \ statusKeys ((f, IncrementalStatus.MODIFIED) :: st)).card
      < ((((f :: rest).toFinset ∪ graphNodes g) \ statusKeys st)).card := by
    calc (((includersOf g f ++ rest).toFinset ∪ graphNodes g)
        \ statusKeys ((f, IncrementalStatus.MODIFIED) :: st)).card
        ≤ ((((f :: rest).toFinset ∪ graphNodes g) \ statusKeys st).erase f).card :=
          Finset.card_le_card hsub
      _ < ((((f :: rest).toFinset ∪ graphNodes g) \ statusKeys st)).card :=
          Finset.card_erase_lt_of_mem hfB
  exact Prod.Lex.left _ _ hlt

/-- The entry point `CppParser::markAsModified(file_)`. -/
def markAsModified (g : InclusionGraph) (file : Nat) (st : StatusMap) : StatusMap :=
  markGo g [file] st

/-- One row of the File query of `CppParser::incrementalParse` together with
the external state it consults: whether the path still exists on disk
(`boost::filesystem::exists`), the stored content hash (`none` models a null
`content` pointer), and the digest of the current on-disk bytes
(`util::sha1Hash(fileContent)`; the hashing primitive is external, so only
the resulting digest string appears in the embedding). -/
structure DiskFile where
  file : Nat
  existsOnDisk : Bool
  storedHash : Option String
  diskHash : String
deriving DecidableEq, Repr

/-- The change-detection loop of `CppParser::incrementalParse` (the first
`for` over the queried non-directory, non-binary files, in query order):
an existing file that is not yet classified and owns a content record is
hash-compared and cascaded through `markAsModified` on mismatch; a file
absent from disk is inserted as DELETED (with `std::map::insert`
semantics); everything else is left untouched. -/
def detectChanges (g : InclusionGraph) : List DiskFile → StatusMap → StatusMap
  | [], st => st
  | r :: rest, st =>
    if r.existsOnDisk then
      if (statusOf st r.file).isSome then detectChanges g rest st
      else
        match r.storedHash with
        | none => detectChanges g rest st
        | some h =>
          if h ≠ r.diskHash then detectChanges g rest (markAsModified g r.file st)
          else detectChanges g rest st
    else
      detectChanges g rest (insertStatus st r.file IncrementalStatus.DELETED)

/-- Transitive inclusion, upwards: `TransIncluder g f x` says that `x = f`
or `x` reaches `f` by a chain of `CppHeaderInclusion` edges, each step
moving from a file to one of its includers. -/
inductive TransIncluder (g : InclusionGraph) : Nat → Nat → Prop
  | refl (f : Nat) : TransIncluder g f f
  | step (f h x : Nat) (he : (h, f) ∈ g) (ht : TransIncluder g h x) :
      TransIncluder g f x

/-- An includer chain from `f` to `h` all of whose members are unclassified
in the status map `st`. -/
inductive UnclassifiedChain (g : InclusionGraph) (st : StatusMap) : Nat → Nat → Prop
  | refl (f : Nat) (hf : statusOf st f = none) : UnclassifiedChain g st f f
  | step (f x h : Nat) (hc : UnclassifiedChain g st f x) (he : (h, x) ∈ g)
      (hh : statusOf st h = none) : UnclassifiedChain g st f h

/-! ## `CppParser::collectNodeSet` and connected-component deletion -/

/-- The neighbours a dequeued node contributes in `CppParser::collectNodeSet`:
first the `to` endpoints of edges where it is `from`, then the `from`
endpoints of edges where it is `to` (`model::CppEdge` rows are pairs
`(from, to)`). -/
def neighborsOf (edges : List (Nat × Nat)) (n : Nat) : List Nat :=
  (edges.filter (fun e => e.1 = n)).map Prod.snd ++
    (edges.filter (fun e => e.2 = n)).map Prod.fst

/-- Every node id mentioned by the edge table. -/
def edgeNodes (edges : List (Nat × Nat)) : Finset Nat :=
  (edges.map Prod.fst).toFinset ∪ (edges.map Prod.snd).toFinset

/-- The inner loops of `CppParser::collectNodeSet`: each candidate
neighbour that is not yet in `nodes` is inserted and appended to the
process queue, testing membership against the accumulating set. -/
def enqueueNew (nodes : Finset Nat) (queue : List Nat) : List Nat → Finset Nat × List Nat
  | [] => (nodes, queue)
  | m :: ms =>
    if m ∈ nodes then enqueueNew nodes queue ms
    else enqueueNew (insert m nodes) (queue ++ [m]) ms

/-- The breadth-first loop of `CppParser::collectNodeSet` (`while
(!processQueue.empty())`). -/
def collectGo (edges : List (Nat × Nat)) (queue : List Nat) (nodes : Finset Nat) : Finset Nat :=
  match queue with
  | [] => nodes
  | n :: rest =>
    collectGo edges (enqueueNew nodes rest (neighborsOf edges n)).2
      (enqueueNew nodes rest (neighborsOf edges n)).1
termination_by ((edgeNodes edges \ nodes).card, queue.length)
decreasing_by
  have grow : ∀ (ms : List Nat) (nd : Finset Nat) (q : List Nat),
      ((enqueueNew nd q ms).1 = nd ∧ (enqueueNew nd q ms).2 = q) ∨
        (nd ⊂ (enqueueNew nd q ms).1 ∧ (enqueueNew nd q ms).1 ⊆ nd ∪ ms.toFinset) := by
    intro ms
    induction ms with
    | nil => intro nd q; exact Or.inl ⟨rfl, rfl⟩
    | cons m ms ih =>
      intro nd q
      by_cases hm : m ∈ nd
      · rcases ih nd q with h | h
        · exact Or.inl (by simpa [enqueueNew, hm] using h)
        · refine Or.inr ⟨by simpa [enqueueNew, hm] using h.1, ?_⟩
          have := h.2
          simp only [enqueueNew, if_pos hm]
          intro x hx
          rcases Finset.mem_union.mp (this hx) with h1 | h1
          · exact Finset.mem_union_left _ h1
          · exact Finset.mem_union_right _ (by simp [List.mem_toFinset] at h1 ⊢; exact Or.inr h1)
      · rcases ih (insert m nd) (q ++ [m]) with h | h
        · refine Or.inr ⟨?_, ?_⟩
          · simp only [enqueueNew, if_neg hm]
            rw [h.1]
            exact Finset.ssubset_insert hm
          · simp only [enqueueNew, if_neg hm]
            rw [h.1]
            intro x hx
            rcases Finset.mem_insert.mp hx with h1 | h1
            · exact Finset.mem_union_right _ (by simp [h1])
            · exact Finset.mem_union_left _ h1
        · refine Or.inr ⟨?_, ?_⟩
          · simp only [enqueueNew, if_neg hm]
            exact lt_of_le_of_lt (Finset.subset_insert m nd).le (by simpa [enqueueNew, if_neg hm] using h.1)
          · simp only [enqueueNew, if_neg hm]
            intro x hx
            rcases Finset.mem_union.mp (h.2 hx) with h1 | h1
            · rcases Finset.mem_insert.mp h1 with h2 | h2
              · exact Finset.mem_union_right _ (by simp [h2])
              · exact Finset.mem_union_left _ h2
            · exact Finset.mem_union_right _ (by simp [List.mem_toFinset] at h1 ⊢; exact Or.inr h1)
  have hnb : ∀ (k : Nat), ∀ x ∈ (neighborsOf edges k).toFinset, x ∈ edgeNodes edges := by
    intro k x hx
    rw [List.mem_toFinset] at hx
    rcases List.mem_append.mp hx with h1 | h1
    · rcases List.mem_map.mp h1 with ⟨e, he, hex⟩
      exact Finset.mem_union_right _ (by
        simp only [List.mem_toFinset, List.mem_map]
        exact ⟨e, List.mem_of_mem_filter he, hex⟩)
    · rcases List.mem_map.mp h1 with ⟨e, he, hex⟩
      exact Finset.mem_union_left _ (by
        simp only [List.mem_toFinset, List.mem_map]
        exact ⟨e, List.mem_of_mem_filter he, hex⟩)
  have main : ∀ (k : Nat) (q : List Nat),
      Prod.Lex (fun a b : Nat => a < b) (fun a b : Nat => a < b)
        ((edgeNodes edges \ (enqueueNew nodes q (neighborsOf edges k)).1).card,
          (enqueueNew nodes q (neighborsOf edges k)).2.length)
        ((edgeNodes edges \ nodes).card, (k :: q).length) := by
    intro k q
    rcases grow (neighborsOf edges k) nodes q with h | h
    · rw [h.1, h.2, Prod.lex_def]
      exact Or.inr ⟨rfl, by simp⟩
    · refine Prod.Lex.left _ _ ?_
      have hsub : edgeNodes edges \ (enqueueNew nodes q (neighborsOf edges k)).1
          ⊆ edgeNodes edges \ nodes :=
        Finset.sdiff_subset_sdiff (Finset.Subset.refl _) h.1.subset
      rcases Finset.exists_of_ssubset h.1 with ⟨x, hx1, hx2⟩
      have hxe : x ∈ edgeNodes edges := by
        rcases Finset.mem_union.mp (h.2 hx1) with h1 | h1
        · exact absurd h1 hx2
        · exact hnb k x h1
      refine Finset.card_lt_card ⟨hsub, fun hall => ?_⟩
      have hxmem : x ∈ edgeNodes edges \ (enqueueNew nodes q (neighborsOf edges k)).1 :=
        hall (Finset.mem_sdiff.mpr ⟨hxe, hx2⟩)
      exact (Finset.mem_sdiff.mp hxmem).2 hx1
  exact main _ _

/-- Models `CppParser::collectNodeSet(node_)`: the start node is inserted
and enqueued, then the breadth-first loop runs to exhaustion. -/
def collectNodeSet (edges : List (Nat × Nat)) (node : Nat) : Finset Nat :=
  collectGo edges [node] {node}

/-- Undirected reachability over `CppEdge` rows, as the specification
describes the collected component: edges may be crossed from `from` to `to`
or from `to` to `from`. -/
inductive UndirReach (edges : List (Nat × Nat)) (start : Nat) : Nat → Prop
  | refl : UndirReach edges start start
  | fromTo (u v : Nat) (hu : UndirReach edges start u) (he : (u, v) ∈ edges) :
      UndirReach edges start v
  | toFrom (u v : Nat) (hu : UndirReach edges start u) (he : (v, u) ∈ edges) :
      UndirReach edges start v

/-- The `model::CppNode` / `model::CppEdge` store slice the cleanup loop of
`CppParser::incrementalParse` works on: the alive node ids and the edge rows
`(from, to)`. -/
structure GraphStore where
  nodes : List Nat
  edges : List (Nat × Nat)
deriving DecidableEq, Repr

/-- Modelled from the spec: `_ctx.db->erase<model::CppNode>(nodeId)` removes
the node row; the `model::CppEdge` schema (the ODB model headers, which are
not part of the parser source) associates each edge to its endpoint nodes by
non-null foreign key, and the store erases the `CppEdge` rows referencing an
erased node together with it, per the data model's ownership rules ("GraphNode
[rows] are associated ... by hash or foreign key" and "deleting a GraphNode
must not leave dangling GraphEdges"). -/
def eraseNode (st : GraphStore) (n : Nat) : GraphStore :=
  { nodes := st.nodes.filter (fun m => m ≠ n),
    edges := st.edges.filter (fun e => e.1 ≠ n ∧ e.2 ≠ n) }

/-- The component-deletion loop of `CppParser::incrementalParse`:
`for (CppNodeId nodeId : collectNodeSet(node.id)) erase<CppNode>(nodeId)`
(a `std::set` iterates in ascending key order). -/
def deleteComponent (st : GraphStore) (start : Nat) : GraphStore :=
  ((collectNodeSet st.edges start).sort (· ≤ ·)).foldl eraseNode st

/-! ## Build actions, command hashing and the dispatch loop -/

/-- Modelled from the spec: `util::fnvHash` (in `util/hash.h`, outside the
parser source) is the "stable hash ... of a string (command-line hash)";
embedded as the standard 64-bit FNV-1a digest of the characters. -/
def fnvHash (s : String) : Nat :=
  s.toList.foldl (fun h c => ((h ^^^ c.toNat) * 1099511628211) % (2 ^ 64))
    14695981039346656037

/-- The `model::BuildAction::type` values. -/
inductive BuildActionType where
  | Compile
  | Link
deriving DecidableEq, Repr

/-- A persisted `model::BuildAction` row: the joined command line and the
action type. -/
structure BuildAction where
  command : String
  type : BuildActionType
deriving DecidableEq, Repr

/-- Models `CppParser::addBuildAction`: the command line is joined by single
spaces and the type is derived from the primary file name's extension. -/
def addBuildAction (command : CompileCommand) : BuildAction :=
  { command := joinSpace command.CommandLine,
    type :=
      if pathExtension command.Filename = ".o" ∨ pathExtension command.Filename = ".so"
          ∨ pathExtension command.Filename = ".a" then
        BuildActionType.Link
      else BuildActionType.Compile }

/-- Models `CppParser::initBuildActions`: `_parsedCommandHashes` is seeded
with the hash of every persisted build action's command string. -/
def initBuildActions (persisted : List String) : List Nat :=
  persisted.map fnvHash

/-- The job-submission loop of `CppParser::parseByJson`: each command's
joined line is hashed; a hash already in `_parsedCommandHashes` is skipped
("Already parsed"), otherwise the hash is inserted and the job is enqueued.
Returns the final hash set and the enqueued jobs in order. -/
def dispatchLoop (parsed : List Nat) : List CompileCommand → List Nat × List CompileCommand
  | [] => (parsed, [])
  | c :: rest =>
    if (fnvHash (joinSpace c.CommandLine)) ∈ parsed then dispatchLoop parsed rest
    else
      ((dispatchLoop (fnvHash (joinSpace c.CommandLine) :: parsed) rest).1,
        c :: (dispatchLoop (fnvHash (joinSpace c.CommandLine) :: parsed) rest).2)

/-- One input path of `CppParser::parse` together with the external facts
about it: whether `boost::filesystem::is_regular_file` holds, whether
`JSONCompilationDatabase::loadFromFile` succeeds (its `errorMsg` stays
empty), and the compile commands the database contains. -/
structure ParseInput where
  isRegularFile : Bool
  loadOk : Bool
  commands : List CompileCommand
deriving DecidableEq, Repr

/-- Models `CppParser::parseByJson`: a load error logs and returns `false`
without dispatching anything; otherwise the submission loop runs and the
function returns `true`.  The result is (success, final hash set,
dispatched jobs). -/
def parseByJsonModel (parsed : List Nat) (inp : ParseInput) :
    Bool × List Nat × List CompileCommand :=
  if inp.loadOk then
    (true, (dispatchLoop parsed inp.commands).1, (dispatchLoop parsed inp.commands).2)
  else (false, parsed, [])

/-- The input loop of `CppParser::parse`: `success = success &&
parseByJson(input, jobs)` with C++ short-circuit evaluation, so once
`success` is false `parseByJson` is no longer invoked.  Returns the final
`success` flag and, for every regular-file input, the list of jobs
dispatched for it (empty when it was skipped). -/
def parseLoop (parsed : List Nat) (success : Bool) :
    List ParseInput → Bool × List (List CompileCommand)
  | [] => (success, [])
  | inp :: rest =>
    if inp.isRegularFile then
      if success then
        ((parseLoop (parseByJsonModel parsed inp).2.1 (parseByJsonModel parsed inp).1 rest).1,
          (parseByJsonModel parsed inp).2.2 ::
            (parseLoop (parseByJsonModel parsed inp).2.1 (parseByJsonModel parsed inp).1 rest).2)
      else
        ((parseLoop parsed false rest).1, [] :: (parseLoop parsed false rest).2)
    else
      parseLoop parsed success rest

/-! ## The file store and `CppParser::addCompileCommand` -/

/-- The `model::File::ParseStatus` values used by the source. -/
inductive ParseStatus where
  | PSNone
  | PSPartiallyParsed
  | PSFullyParsed
deriving DecidableEq, Repr

/-- The `model::File` type tags relevant here (the spec's `type ∈
{Directory, Binary, Other}`). -/
inductive FileType where
  | Directory
  | Binary
  | Other
deriving DecidableEq, Repr

/-- The fields of a `model::File` row that `addCompileCommand` mutates. -/
structure FileRec where
  type : FileType
  parseStatus : ParseStatus
deriving DecidableEq, Repr

/-- The `SourceManager`'s file table, keyed by absolute path. -/
abbrev FileStore := List (String × FileRec)

/-- Lookup of a file row by path. -/
def lookupFile : FileStore → String → Option FileRec
  | [], _ => none
  | (q, w) :: rest, p => if q = p then some w else lookupFile rest p

/-- Replace the first row with the given path, or append a fresh row. -/
def updateFile : FileStore → String → FileRec → FileStore
  | [], p, r => [(p, r)]
  | (q, w) :: rest, p, r =>
    if q = p then (q, r) :: rest else (q, w) :: updateFile rest p r

/-- Models `SourceManager::getFile`: the row for the path, created with
default fields on first reference ("Created on first reference by any
component" in the data model; the defaults themselves never reach a proved
statement). -/
def getFileRec (s : FileStore) (p : String) : FileRec :=
  (lookupFile s p).getD { type := FileType.Other, parseStatus := ParseStatus.PSNone }

/-- The parse status the store holds for a path. -/
def fileParseStatusOf (s : FileStore) (p : String) : ParseStatus :=
  (getFileRec s p).parseStatus

/-- The file type the store holds for a path. -/
def fileTypeOf (s : FileStore) (p : String) : FileType :=
  (getFileRec s p).type

/-- The `buildSource.file->parseStatus = ...; updateFile(...)` step of
`CppParser::addCompileCommand`. -/
def setParseStatus (s : FileStore) (p : String) (v : ParseStatus) : FileStore :=
  updateFile s p { getFileRec s p with parseStatus := v }

/-- The `if (buildTarget.file->type != BINARY_TYPE) { ... = BINARY_TYPE;
updateFile(...) }` step of `CppParser::addCompileCommand`. -/
def setBinaryType (s : FileStore) (p : String) : FileStore :=
  if (getFileRec s p).type = FileType.Binary then s
  else updateFile s p { getFileRec s p with type := FileType.Binary }

/-- The loop of `CppParser::addCompileCommand` over
`extractInputOutputs(command_)`: each input file's parse status is set from
the error flag, each output file's type is promoted to Binary, and the
`BuildSource` / `BuildTarget` rows referencing the action are collected for
persisting.  Result: (file store, BuildSource rows, BuildTarget rows), a
row being a (path, action command) pair. -/
def applyPairs (action : String) (err : Bool) :
    List (String × String) → FileStore → FileStore × List (String × String) × List (String × String)
  | [], store => (store, [], [])
  | p :: rest, store =>
    ((applyPairs action err rest (setBinaryType (setParseStatus store p.1
        (if err then ParseStatus.PSPartiallyParsed else ParseStatus.PSFullyParsed)) p.2)).1,
      (p.1, action) :: (applyPairs action err rest (setBinaryType (setParseStatus store p.1
        (if err then ParseStatus.PSPartiallyParsed else ParseStatus.PSFullyParsed)) p.2)).2.1,
      (p.2, action) :: (applyPairs action err rest (setBinaryType (setParseStatus store p.1
        (if err then ParseStatus.PSPartiallyParsed else ParseStatus.PSFullyParsed)) p.2)).2.2)

/-- Models `CppParser::addCompileCommand(command_, buildAction_, error_)`. -/
def addCompileCommand (store : FileStore) (command : CompileCommand) (action : String)
    (err : Bool) : FileStore × List (String × String) × List (String × String) :=
  applyPairs action err (extractInputOutputs command) store

/-- Models `CppParser::worker(command_)`: when the fixed compilation
database cannot be built the worker logs and returns 1 before touching the
store; otherwise it records the build action, runs the external tool (whose
integer result is the parameter `toolResult`), records the compile command
with `error = toolResult` as a boolean, and returns `toolResult`.  Result:
(returned code, file store, BuildSource rows, BuildTarget rows). -/
def worker (store : FileStore) (command : CompileCommand) (dbOk : Bool) (toolResult : Int) :
    Int × FileStore × List (String × String) × List (String × String) :=
  if dbOk then
    (toolResult,
      addCompileCommand store command (addBuildAction command).command (toolResult ≠ 0))
  else (1, store, [], [])

/-! ## Transaction granularity of the invalidation cleanup -/

/-- A unit of work of the cleanup loop; per classified file the loop ends by
removing the `model::File` row itself (`srcMgr.removeFile`), which stands
here for the file's whole cleanup. -/
inductive CleanupOp where
  | removeFile (f : Nat)
deriving DecidableEq, Repr

/-- Effect of one cleanup operation on the file table. -/
def applyOp (store : List Nat) : CleanupOp → List Nat
  | CleanupOp.removeFile f => store.filter (fun m => m ≠ f)

/-- The transaction list the source produces: `CppParser::incrementalParse`
wraps the whole classification-and-cleanup body in a single
`util::OdbTransaction` call (the lambda from line 370 to the comment
"end of transaction"), so every classified file's cleanup belongs to one
transaction. -/
def incrementalTransactions (classified : List Nat) : List (List CleanupOp) :=
  [classified.map CleanupOp.removeFile]

/-- Follows the spec's words, for comparison: "each file's cleanup is one
transaction" would give one transaction per classified file. -/
def perFileTransactions (classified : List Nat) : List (List CleanupOp) :=
  classified.map (fun f => [CleanupOp.removeFile f])

/-- Transactional execution: a transaction containing a failing operation
aborts as a unit and leaves the store unchanged (the spec's store model:
"a transaction fails; must abort that unit of work ... without corrupting
previously committed units"), otherwise its operations are applied. -/
def runTx (failing : CleanupOp → Bool) (store : List Nat) (tx : List CleanupOp) : List Nat :=
  if tx.any failing then store else tx.foldl applyOp store

/-- Run a list of transactions in order. -/
def runTxs (failing : CleanupOp → Bool) (store : List Nat)
    (txs : List (List CleanupOp)) : List Nat :=
  txs.foldl (runTx failing) store

/-! ## Lemmas about the `markAsModified` cascade -/

theorem markGo_nil (g : InclusionGraph) (st : StatusMap) : markGo g [] st = st := by
  rw [markGo]

theorem markGo_cons_classified (g : InclusionGraph) (f : Nat) (rest : List Nat)
    (st : StatusMap) (h : (statusOf st f).isSome) :
    markGo g (f :: rest) st = markGo g rest st := by
  rw [markGo]
  simp [h]

theorem markGo_cons_unclassified (g : InclusionGraph) (f : Nat) (rest : List Nat)
    (st : StatusMap) (h : ¬ (statusOf st f).isSome) :
    markGo g (f :: rest) st =
      markGo g (includersOf g f ++ rest) ((f, IncrementalStatus.MODIFIED) :: st) := by
  rw [markGo]
  simp [h]

/-- The cascade never unsets or changes an existing classification. -/
theorem markGo_mono (g : InclusionGraph) (x : Nat) (v : IncrementalStatus) :
    ∀ (p : List Nat) (st : StatusMap), statusOf st x = some v →
      statusOf (markGo g p st) x = some v := by
  intro p st
  induction p, st using markGo.induct g with
  | case1 st =>
    intro hx
    simpa [markGo_nil] using hx
  | case2 st f rest hcl ih =>
    intro hx
    rw [markGo_cons_classified g f rest st hcl]
    exact ih hx
  | case3 st f rest hcl ih =>
    intro hx
    rw [markGo_cons_unclassified g f rest st hcl]
    refine ih ?_
    have hxf : x ≠ f := by
      intro he
      rw [he] at hx
      rw [hx] at hcl
      simp at hcl
    simpa [statusOf, Ne.symm hxf] using hx

/-- Every file on the work list is classified in the cascade's result. -/
theorem markGo_pending_classified (g : InclusionGraph) (x : Nat) :
    ∀ (p : List Nat) (st : StatusMap), x ∈ p →
      (statusOf (markGo g p st) x).isSome := by
  intro p st
  induction p, st using markGo.induct g with
  | case1 st =>
    intro hx
    simp at hx
  | case2 st f rest hcl ih =>
    intro hx
    rw [markGo_cons_classified g f rest st hcl]
    rcases List.mem_cons.mp hx with he | hm
    · rw [he]
      rcases Option.isSome_iff_exists.mp hcl with ⟨v, hv⟩
      rw [markGo_mono g f v rest st hv]
      rfl
    · exact ih hm
  | case3 st f rest hcl ih =>
    intro hx
    rw [markGo_cons_unclassified g f rest st hcl]
    rcases List.mem_cons.mp hx with he | hm
    · rw [he]
      have hst : statusOf ((f, IncrementalStatus.MODIFIED) :: st) f
          = some IncrementalStatus.MODIFIED := by simp [statusOf]
      rw [markGo_mono g f IncrementalStatus.MODIFIED _ _ hst]
      rfl
    · exact ih (List.mem_append_right _ hm)

/-- A newly produced classification is always MODIFIED. -/
theorem markGo_new_modified (g : InclusionGraph) (x : Nat) (v : IncrementalStatus) :
    ∀ (p : List Nat) (st : StatusMap), statusOf st x = none →
      statusOf (markGo g p st) x = some v → v = IncrementalStatus.MODIFIED := by
  intro p st
  induction p, st using markGo.induct g with
  | case1 st =>
    intro hn hs
    rw [markGo_nil] at hs
    rw [hn] at hs
    cases hs
  | case2 st f rest hcl ih =>
    intro hn hs
    rw [markGo_cons_classified g f rest st hcl] at hs
    exact ih hn hs
  | case3 st f rest hcl ih =>
    intro hn hs
    rw [markGo_cons_unclassified g f rest st hcl] at hs
    by_cases hxf : x = f
    · have hst : statusOf ((f, IncrementalStatus.MODIFIED) :: st) x
          = some IncrementalStatus.MODIFIED := by simp [statusOf, hxf]
      rw [markGo_mono g x IncrementalStatus.MODIFIED _ _ hst] at hs
      exact (Option.some_inj.mp hs).symm
    · refine ih ?_ hs
      simpa [statusOf, Ne.symm hxf] using hn

/-- When the cascade newly classifies a file MODIFIED, every includer of
that file is classified in the cascade's result. -/
theorem markGo_includers_classified (g : InclusionGraph) (x : Nat) :
    ∀ (p : List Nat) (st : StatusMap), statusOf st x = none →
      statusOf (markGo g p st) x = some IncrementalStatus.MODIFIED →
      ∀ h ∈ includersOf g x, (statusOf (markGo g p st) h).isSome := by
  intro p st
  induction p, st using markGo.induct g with
  | case1 st =>
    intro hn hs
    rw [markGo_nil] at hs
    rw [hn] at hs
    cases hs
  | case2 st f rest hcl ih =>
    intro hn hs
    rw [markGo_cons_classified g f rest st hcl] at hs ⊢
    exact ih hn hs
  | case3 st f rest hcl ih =>
    intro hn hs
    rw [markGo_cons_unclassified g f rest st hcl] at hs ⊢
    by_cases hxf : x = f
    · intro h hm
      refine markGo_pending_classified g h _ _ ?_
      refine List.mem_append_left _ ?_
      rw [hxf] at hm
      exact hm
    · refine ih ?_ hs
      simpa [statusOf, Ne.symm hxf] using hn

/-- The endpoint of an unclassified includer chain is unclassified. -/
theorem unclassifiedChain_endpoint (g : InclusionGraph) (st : StatusMap)
    (f h : Nat) (hc : UnclassifiedChain g st f h) : statusOf st h = none := by
  cases hc with
  | refl hf => exact hf
  | step x h2 hc he hh => exact hh

/-- Claim C1 (amended): for every inclusion relation — cyclic ones
included, since `markAsModified` is total by well-founded recursion on the
number of unclassified files, mirroring the source's stop-at-classified
guard — the cascade started at a file `f` classifies as MODIFIED every file
that transitively includes `f` through a chain of files that were all
unclassified when the cascade started.  (Files already classified, e.g.
DELETED ones, stop the cascade; see the counterexample.) -/
theorem markAsModified_marks_unclassified_chains (g : InclusionGraph)
    (st : StatusMap) (f h : Nat) (hc : UnclassifiedChain g st f h) :
    statusOf (markAsModified g f st) h = some IncrementalStatus.MODIFIED := by
  induction hc with
  | refl hf =>
    have hcl := markGo_pending_classified g f [f] st (by simp)
    rcases Option.isSome_iff_exists.mp hcl with ⟨v, hv⟩
    have hmv := markGo_new_modified g f v [f] st hf hv
    rw [hmv] at hv
    exact hv
  | step x y hchain he hy ih =>
    have hxnone : statusOf st x = none := unclassifiedChain_endpoint g st f x hchain
    have hcls := markGo_includers_classified g x [f] st hxnone ih y
      (by
        simp only [includersOf, List.mem_map, List.mem_filter, decide_eq_true_eq]
        exact ⟨(y, x), ⟨he, rfl⟩, rfl⟩)
    rcases Option.isSome_iff_exists.mp hcls with ⟨v, hv⟩
    have hmv := markGo_new_modified g y v [f] st hy hv
    rw [hmv] at hv
    exact hv

/-- Witness for the amended claim C1 on a concrete inclusion chain
0 ← 1 ← 2 (file 2 includes file 1, which includes file 0). -/
theorem markAsModified_marks_unclassified_chains_witness :
    statusOf (markAsModified [(1, 0), (2, 1)] 0 []) 2 = some IncrementalStatus.MODIFIED :=
  markAsModified_marks_unclassified_chains [(1, 0), (2, 1)] [] 0 2
    (UnclassifiedChain.step 0 1 2
      (UnclassifiedChain.step 0 0 1 (UnclassifiedChain.refl 0 rfl) (by simp) rfl)
      (by simp) rfl)

/-- Counterexample to claim C1 as stated: take files 0 (on disk, stored
hash differs from disk), 1 (absent from disk, includes 0) and 2 (on disk,
unchanged, includes 1), with the store query iterating file 1 before
file 0.  File 1 is classified DELETED first; the cascade from file 0 then
stops at the already-classified file 1, so although file 2 transitively
includes file 0 it is never classified, and file 1 itself ends DELETED, not
MODIFIED. -/
theorem cascade_blocked_by_deleted_counterexample :
    TransIncluder [(1, 0), (2, 1)] 0 2 ∧
      statusOf (detectChanges [(1, 0), (2, 1)]
        [⟨1, false, some "h1", "h1"⟩, ⟨0, true, some "old", "new"⟩,
          ⟨2, true, some "k", "k"⟩] []) 2 = none ∧
      statusOf (detectChanges [(1, 0), (2, 1)]
        [⟨1, false, some "h1", "h1"⟩, ⟨0, true, some "old", "new"⟩,
          ⟨2, true, some "k", "k"⟩] []) 1 = some IncrementalStatus.DELETED := by
  refine ⟨TransIncluder.step 0 1 2 (by simp)
    (TransIncluder.step 1 2 2 (by simp) (TransIncluder.refl 2)), ?_, ?_⟩
  · simp [detectChanges, markAsModified, insertStatus, statusOf, includersOf,
      markGo_nil, markGo_cons_classified, markGo_cons_unclassified]
  · simp [detectChanges, markAsModified, insertStatus, statusOf, includersOf,
      markGo_nil, markGo_cons_classified, markGo_cons_unclassified]

/-- Every classification the cascade adds is MODIFIED and lies upwards of a
file on the work list along inclusion edges. -/
theorem markGo_sound (g : InclusionGraph) (x : Nat) (v : IncrementalStatus) :
    ∀ (p : List Nat) (st : StatusMap),
      statusOf (markGo g p st) x = some v →
      statusOf st x = some v ∨
        (v = IncrementalStatus.MODIFIED ∧ ∃ f ∈ p, TransIncluder g f x) := by
  intro p st
  induction p, st using markGo.induct g with
  | case1 st =>
    intro hs
    rw [markGo_nil] at hs
    exact Or.inl hs
  | case2 st f rest hcl ih =>
    intro hs
    rw [markGo_cons_classified g f rest st hcl] at hs
    rcases ih hs with h | ⟨hv, f2, hf2, ht⟩
    · exact Or.inl h
    · exact Or.inr ⟨hv, f2, List.mem_cons_of_mem f hf2, ht⟩
  | case3 st f rest hcl ih =>
    intro hs
    rw [markGo_cons_unclassified g f rest st hcl] at hs
    rcases ih hs with h | ⟨hv, f2, hf2, ht⟩
    · by_cases hxf : x = f
      · subst hxf
        have hv : v = IncrementalStatus.MODIFIED := by
          have := h
          simp [statusOf] at this
          exact this.symm
        exact Or.inr ⟨hv, x, by simp, TransIncluder.refl x⟩
      · refine Or.inl ?_
        simpa [statusOf, Ne.symm hxf] using h
    · rcases List.mem_append.mp hf2 with hin | hin
      · have he : (f2, f) ∈ g := by
          simp only [includersOf, List.mem_map, List.mem_filter,
            decide_eq_true_eq] at hin
          rcases hin with ⟨e, ⟨heg, he2⟩, he1⟩
          rcases e with ⟨a, b⟩
          rw [← he1, ← he2]
          exact heg
        exact Or.inr ⟨hv, f, by simp, TransIncluder.step f f2 x he ht⟩
      · exact Or.inr ⟨hv, f2, List.mem_cons_of_mem f hin, ht⟩

/-- Inserting a DELETED classification can never produce a MODIFIED one. -/
theorem insertStatus_deleted_modified (st : StatusMap) (f x : Nat)
    (h : statusOf (insertStatus st f IncrementalStatus.DELETED) x
      = some IncrementalStatus.MODIFIED) :
    statusOf st x = some IncrementalStatus.MODIFIED := by
  unfold insertStatus at h
  by_cases hs : (statusOf st f).isSome
  · simpa [hs] using h
  · rw [if_neg hs] at h
    by_cases hxf : f = x
    · simp [statusOf, hxf] at h
    · simpa [statusOf, hxf] using h

/-- Change detection classifies a file MODIFIED only when some
hash-mismatched, still-existing file sits below it along inclusion edges. -/
theorem detectChanges_modified_sound (g : InclusionGraph) (x : Nat) :
    ∀ (fs : List DiskFile) (st : StatusMap),
      statusOf (detectChanges g fs st) x = some IncrementalStatus.MODIFIED →
      statusOf st x = some IncrementalStatus.MODIFIED ∨
        ∃ r ∈ fs, r.existsOnDisk = true ∧ ∃ hsh, r.storedHash = some hsh ∧
          hsh ≠ r.diskHash ∧ TransIncluder g r.file x := by
  intro fs
  induction fs with
  | nil =>
    intro st hs
    exact Or.inl (by simpa [detectChanges] using hs)
  | cons r rest ih =>
    intro st hs
    rw [detectChanges] at hs
    by_cases hex : r.existsOnDisk
    · rw [if_pos hex] at hs
      by_cases hcl : (statusOf st r.file).isSome
      · rw [if_pos hcl] at hs
        rcases ih st hs with h | ⟨r2, hr2, hrest⟩
        · exact Or.inl h
        · exact Or.inr ⟨r2, List.mem_cons_of_mem r hr2, hrest⟩
      · rw [if_neg hcl] at hs
        rcases hsh : r.storedHash with _ | hval
        · rw [hsh] at hs
          rcases ih st hs with h | ⟨r2, hr2, hrest⟩
          · exact Or.inl h
          · exact Or.inr ⟨r2, List.mem_cons_of_mem r hr2, hrest⟩
        · rw [hsh] at hs
          have hs2 : statusOf (if hval ≠ r.diskHash
              then detectChanges g rest (markAsModified g r.file st)
              else detectChanges g rest st) x = some IncrementalStatus.MODIFIED := hs
          by_cases hne : hval ≠ r.diskHash
          · rw [if_pos hne] at hs2
            rcases ih (markAsModified g r.file st) hs2 with h | ⟨r2, hr2, hrest⟩
            · rcases markGo_sound g x IncrementalStatus.MODIFIED [r.file] st h with
                h2 | ⟨_, f2, hf2, ht⟩
              · exact Or.inl h2
              · have hf2e : f2 = r.file := by simpa using hf2
                rw [hf2e] at ht
                exact Or.inr ⟨r, List.mem_cons_self r rest, hex, hval, hsh, hne, ht⟩
            · exact Or.inr ⟨r2, List.mem_cons_of_mem r hr2, hrest⟩
          · rw [if_neg hne] at hs2
            rcases ih st hs2 with h | ⟨r2, hr2, hrest⟩
            · exact Or.inl h
            · exact Or.inr ⟨r2, List.mem_cons_of_mem r hr2, hrest⟩
    · rw [if_neg hex] at hs
      rcases ih (insertStatus st r.file IncrementalStatus.DELETED) hs with h | ⟨r2, hr2, hrest⟩
      · exact Or.inl (insertStatus_deleted_modified st r.file x h)
      · exact Or.inr ⟨r2, List.mem_cons_of_mem r hr2, hrest⟩

/-- Counterexample to claim C2 as stated: file 3 is included by files 1 and
2 and is absent from disk; files 1 and 2 are unchanged on disk.  The pass
classifies file 3 DELETED but leaves both includers unclassified — the
DELETED branch of `incrementalParse` never calls `markAsModified`. -/
theorem deleted_file_no_cascade_counterexample :
    statusOf (detectChanges [(1, 3), (2, 3)]
        [⟨1, true, some "a", "a"⟩, ⟨2, true, some "b", "b"⟩,
          ⟨3, false, some "c", "c"⟩] []) 3 = some IncrementalStatus.DELETED ∧
      statusOf (detectChanges [(1, 3), (2, 3)]
        [⟨1, true, some "a", "a"⟩, ⟨2, true, some "b", "b"⟩,
          ⟨3, false, some "c", "c"⟩] []) 1 = none ∧
      statusOf (detectChanges [(1, 3), (2, 3)]
        [⟨1, true, some "a", "a"⟩, ⟨2, true, some "b", "b"⟩,
          ⟨3, false, some "c", "c"⟩] []) 2 = none := by
  refine ⟨?_, ?_, ?_⟩ <;>
    simp [detectChanges, insertStatus, statusOf]

/-- Claim C2 (amended): deleting a file does not cascade: the invalidation
pass classifies a file MODIFIED only when that file transitively includes
(reflexively) some file that still exists on disk and whose stored content
hash differs from its current on-disk content; in particular the includers
of a DELETED file stay unclassified unless they are themselves modified or
transitively include a modified file. -/
theorem detectChanges_modified_only_from_hash_mismatch (g : InclusionGraph)
    (fs : List DiskFile) (x : Nat)
    (hs : statusOf (detectChanges g fs []) x = some IncrementalStatus.MODIFIED) :
    ∃ r ∈ fs, r.existsOnDisk = true ∧ ∃ hsh, r.storedHash = some hsh ∧
      hsh ≠ r.diskHash ∧ TransIncluder g r.file x := by
  rcases detectChanges_modified_sound g x fs [] hs with h | h
  · simp [statusOf] at h
  · exact h

/-- Witness for the amended claim C2: a single hash-mismatched file is
classified MODIFIED, and the theorem locates the mismatching file. -/
theorem detectChanges_modified_only_from_hash_mismatch_witness :
    ∃ r ∈ [(⟨1, true, some "a", "b"⟩ : DiskFile)], r.existsOnDisk = true ∧
      ∃ hsh, r.storedHash = some hsh ∧ hsh ≠ r.diskHash ∧
        TransIncluder [] r.file 1 :=
  detectChanges_modified_only_from_hash_mismatch [] [⟨1, true, some "a", "b"⟩] 1
    (by simp [detectChanges, markAsModified, statusOf, includersOf,
      markGo_nil, markGo_cons_classified, markGo_cons_unclassified])

/-! ## Lemmas about `collectNodeSet` -/

theorem mem_neighborsOf (edges : List (Nat × Nat)) (u v : Nat) :
    v ∈ neighborsOf edges u ↔ (u, v) ∈ edges ∨ (v, u) ∈ edges := by
  simp only [neighborsOf, List.mem_append, List.mem_map, List.mem_filter,
    decide_eq_true_eq]
  constructor
  · rintro (⟨⟨a, b⟩, ⟨hg, h1⟩, h2⟩ | ⟨⟨a, b⟩, ⟨hg, h1⟩, h2⟩)
    · simp only [] at h1 h2
      subst h1
      subst h2
      exact Or.inl hg
    · simp only [] at h1 h2
      subst h1
      subst h2
      exact Or.inr hg
  · rintro (h | h)
    · exact Or.inl ⟨(u, v), ⟨h, rfl⟩, rfl⟩
    · exact Or.inr ⟨(v, u), ⟨h, rfl⟩, rfl⟩

/-- The accumulated node set only grows in the inner enqueue loop. -/
theorem enqueueNew_nodes_mono (x : Nat) :
    ∀ (ms : List Nat) (nodes : Finset Nat) (q : List Nat), x ∈ nodes →
      x ∈ (enqueueNew nodes q ms).1 := by
  intro ms
  induction ms with
  | nil => intro nodes q hx; simpa [enqueueNew] using hx
  | cons m ms ih =>
    intro nodes q hx
    by_cases hm : m ∈ nodes
    · simpa [enqueueNew, hm] using ih nodes q hx
    · simp only [enqueueNew, if_neg hm]
      exact ih _ _ (Finset.mem_insert_of_mem hx)

/-- The queue only grows in the inner enqueue loop. -/
theorem enqueueNew_queue_mono (x : Nat) :
    ∀ (ms : List Nat) (nodes : Finset Nat) (q : List Nat), x ∈ q →
      x ∈ (enqueueNew nodes q ms).2 := by
  intro ms
  induction ms with
  | nil => intro nodes q hx; simpa [enqueueNew] using hx
  | cons m ms ih =>
    intro nodes q hx
    by_cases hm : m ∈ nodes
    · simpa [enqueueNew, hm] using ih nodes q hx
    · simp only [enqueueNew, if_neg hm]
      exact ih _ _ (List.mem_append_left _ hx)

/-- Every candidate neighbour ends up in the node set after the enqueue
loop. -/
theorem enqueueNew_ms_subset (x : Nat) :
    ∀ (ms : List Nat) (nodes : Finset Nat) (q : List Nat), x ∈ ms →
      x ∈ (enqueueNew nodes q ms).1 := by
  intro ms
  induction ms with
  | nil => intro nodes q hx; simp at hx
  | cons m ms ih =>
    intro nodes q hx
    by_cases hm : m ∈ nodes
    · rcases List.mem_cons.mp hx with he | hmem
      · subst he
        simpa [enqueueNew, hm] using enqueueNew_nodes_mono x ms nodes q hm
      · simpa [enqueueNew, hm] using ih nodes q hmem
    · rcases List.mem_cons.mp hx with he | hmem
      · subst he
        simp only [enqueueNew, if_neg hm]
        exact enqueueNew_nodes_mono x ms _ _ (Finset.mem_insert_self x nodes)
      · simp only [enqueueNew, if_neg hm]
        exact ih _ _ hmem

/-- A member of the enlarged node set was already known or is pending on
the enlarged queue. -/
theorem enqueueNew_new_pending (x : Nat) :
    ∀ (ms : List Nat) (nodes : Finset Nat) (q : List Nat),
      x ∈ (enqueueNew nodes q ms).1 →
      x ∈ nodes ∨ x ∈ (enqueueNew nodes q ms).2 := by
  intro ms
  induction ms with
  | nil => intro nodes q hx; exact Or.inl (by simpa [enqueueNew] using hx)
  | cons m ms ih =>
    intro nodes q hx
    by_cases hm : m ∈ nodes
    · rcases ih nodes q (by simpa [enqueueNew, hm] using hx) with h | h
      · exact Or.inl h
      · exact Or.inr (by simpa [enqueueNew, hm] using h)
    · simp only [enqueueNew, if_neg hm] at hx ⊢
      rcases ih _ _ hx with h | h
      · rcases Finset.mem_insert.mp h with he | he
        · subst he
          exact Or.inr (enqueueNew_queue_mono x ms _ _ (by simp))
        · exact Or.inl he
      · exact Or.inr h

/-- A member of the enlarged node set was already known or was a candidate
neighbour. -/
theorem enqueueNew_nodes_from (x : Nat) :
    ∀ (ms : List Nat) (nodes : Finset Nat) (q : List Nat),
      x ∈ (enqueueNew nodes q ms).1 → x ∈ nodes ∨ x ∈ ms := by
  intro ms
  induction ms with
  | nil => intro nodes q hx; exact Or.inl (by simpa [enqueueNew] using hx)
  | cons m ms ih =>
    intro nodes q hx
    by_cases hm : m ∈ nodes
    · rcases ih nodes q (by simpa [enqueueNew, hm] using hx) with h | h
      · exact Or.inl h
      · exact Or.inr (List.mem_cons_of_mem m h)
    · simp only [enqueueNew, if_neg hm] at hx
      rcases ih _ _ hx with h | h
      · rcases Finset.mem_insert.mp h with he | he
        · subst he
          exact Or.inr (List.mem_cons_self x ms)
        · exact Or.inl he
      · exact Or.inr (List.mem_cons_of_mem m h)

/-- A queue member after the enqueue loop was already queued or was a
candidate neighbour. -/
theorem enqueueNew_queue_from (x : Nat) :
    ∀ (ms : List Nat) (nodes : Finset Nat) (q : List Nat),
      x ∈ (enqueueNew nodes q ms).2 → x ∈ q ∨ x ∈ ms := by
  intro ms
  induction ms with
  | nil => intro nodes q hx; exact Or.inl (by simpa [enqueueNew] using hx)
  | cons m ms ih =>
    intro nodes q hx
    by_cases hm : m ∈ nodes
    · rcases ih nodes q (by simpa [enqueueNew, hm] using hx) with h | h
      · exact Or.inl h
      · exact Or.inr (List.mem_cons_of_mem m h)
    · simp only [enqueueNew, if_neg hm] at hx
      rcases ih _ _ hx with h | h
      · rcases List.mem_append.mp h with h2 | h2
        · exact Or.inl h2
        · have hxm : x = m := by simpa using h2
          subst hxm
          exact Or.inr (List.mem_cons_self x ms)
      · exact Or.inr (List.mem_cons_of_mem m h)

/-- The accumulated set only grows during the breadth-first loop. -/
theorem collectGo_mono (edges : List (Nat × Nat)) (x : Nat) :
    ∀ (q : List Nat) (nodes : Finset Nat), x ∈ nodes →
      x ∈ collectGo edges q nodes := by
  intro q nodes
  induction q, nodes using collectGo.induct edges with
  | case1 nodes =>
    intro hx
    simpa [collectGo] using hx
  | case2 nodes n rest ih =>
    intro hx
    rw [collectGo]
    exact ih (enqueueNew_nodes_mono x _ _ _ hx)

/-- Soundness of the breadth-first loop: with every queued and every
accumulated node reachable from `s`, every resulting node is reachable
from `s`. -/
theorem collectGo_sound (edges : List (Nat × Nat)) (s : Nat) :
    ∀ (q : List Nat) (nodes : Finset Nat),
      (∀ y ∈ q, UndirReach edges s y) → (∀ y ∈ nodes, UndirReach edges s y) →
      ∀ x ∈ collectGo edges q nodes, UndirReach edges s x := by
  intro q nodes
  induction q, nodes using collectGo.induct edges with
  | case1 nodes =>
    intro _ hn x hx
    rw [collectGo] at hx
    exact hn x hx
  | case2 nodes n rest ih =>
    intro hq hn x hx
    rw [collectGo] at hx
    have hreach_n : UndirReach edges s n := hq n (List.mem_cons_self n rest)
    refine ih ?_ ?_ x hx
    · intro y hy
      rcases enqueueNew_queue_from y _ _ _ hy with h | h
      · exact hq y (List.mem_cons_of_mem n h)
      · rcases (mem_neighborsOf edges n y).mp h with he | he
        · exact UndirReach.fromTo n y hreach_n he
        · exact UndirReach.toFrom n y hreach_n he
    · intro y hy
      rcases enqueueNew_nodes_from y _ _ _ hy with h | h
      · exact hn y h
      · rcases (mem_neighborsOf edges n y).mp h with he | he
        · exact UndirReach.fromTo n y hreach_n he
        · exact UndirReach.toFrom n y hreach_n he

/-- Closure of the breadth-first loop: if every accumulated node is pending
on the queue or already has all its neighbours accumulated, then the
result is closed under neighbours. -/
theorem collectGo_closed (edges : List (Nat × Nat)) :
    ∀ (q : List Nat) (nodes : Finset Nat),
      (∀ u ∈ nodes, u ∈ q ∨ ∀ v ∈ neighborsOf edges u, v ∈ nodes) →
      ∀ u ∈ collectGo edges q nodes, ∀ v ∈ neighborsOf edges u,
        v ∈ collectGo edges q nodes := by
  intro q nodes
  induction q, nodes using collectGo.induct edges with
  | case1 nodes =>
    intro hpre u hu v hv
    rw [collectGo] at hu ⊢
    rcases hpre u hu with h | h
    · simp at h
    · exact h v hv
  | case2 nodes n rest ih =>
    intro hpre u hu v hv
    rw [collectGo] at hu ⊢
    refine ih ?_ u hu v hv
    intro w hw
    rcases enqueueNew_new_pending w _ _ _ hw with hwn | hwq
    · rcases hpre w hwn with h | h
      · rcases List.mem_cons.mp h with he | hr
        · subst he
          refine Or.inr ?_
          intro z hz
          exact enqueueNew_ms_subset z _ _ _ hz
        · exact Or.inl (enqueueNew_queue_mono w _ _ _ hr)
      · refine Or.inr ?_
        intro z hz
        exact enqueueNew_nodes_mono z _ _ _ (h z hz)
    · exact Or.inl hwq

/-- Claim C4: for every finite `CppEdge` table — cyclic graphs included,
`collectNodeSet` being total by well-founded recursion on the number of
not-yet-collected nodes, which mirrors the source's visited-set guard — and
every start node, `collectNodeSet` returns exactly the start node together
with every node reachable from it crossing edges in either direction. -/
theorem collectNodeSet_eq_undirected_reachable (edges : List (Nat × Nat))
    (n x : Nat) : x ∈ collectNodeSet edges n ↔ UndirReach edges n x := by
  constructor
  · intro hx
    refine collectGo_sound edges n [n] {n} ?_ ?_ x hx
    · intro y hy
      have : y = n := by simpa using hy
      subst this
      exact UndirReach.refl
    · intro y hy
      have : y = n := by simpa using hy
      subst this
      exact UndirReach.refl
  · intro hr
    induction hr with
    | refl => exact collectGo_mono edges n [n] {n} (by simp)
    | fromTo u v hu he ih =>
      refine collectGo_closed edges [n] {n} ?_ u ih v
        ((mem_neighborsOf edges u v).mpr (Or.inl he))
      intro w hw
      exact Or.inl (by simpa using hw)
    | toFrom u v hu he ih =>
      refine collectGo_closed edges [n] {n} ?_ u ih v
        ((mem_neighborsOf edges u v).mpr (Or.inr he))
      intro w hw
      exact Or.inl (by simpa using hw)

/-- A node survives the erase loop exactly when it survives every single
erase. -/
theorem eraseFold_nodes (l : List Nat) :
    ∀ (st : GraphStore) (m : Nat),
      m ∈ (l.foldl eraseNode st).nodes ↔ m ∈ st.nodes ∧ ∀ n ∈ l, m ≠ n := by
  induction l with
  | nil => intro st m; simp
  | cons a l ih =>
    intro st m
    rw [List.foldl_cons]
    rw [ih (eraseNode st a) m]
    constructor
    · rintro ⟨hm, hall⟩
      have hm2 : m ∈ st.nodes ∧ m ≠ a := by
        simpa [eraseNode, List.mem_filter] using hm
      refine ⟨hm2.1, ?_⟩
      intro n hn
      rcases List.mem_cons.mp hn with he | hl
      · subst he; exact hm2.2
      · exact hall n hl
    · rintro ⟨hm, hall⟩
      refine ⟨?_, fun n hn => hall n (List.mem_cons_of_mem a hn)⟩
      simp only [eraseNode, List.mem_filter, decide_eq_true_eq]
      exact ⟨hm, hall a (List.mem_cons_self a l)⟩

/-- An edge row survives the erase loop exactly when neither endpoint was
erased. -/
theorem eraseFold_edges (l : List Nat) :
    ∀ (st : GraphStore) (e : Nat × Nat),
      e ∈ (l.foldl eraseNode st).edges ↔
        e ∈ st.edges ∧ ∀ n ∈ l, e.1 ≠ n ∧ e.2 ≠ n := by
  induction l with
  | nil => intro st e; simp
  | cons a l ih =>
    intro st e
    rw [List.foldl_cons]
    rw [ih (eraseNode st a) e]
    constructor
    · rintro ⟨hm, hall⟩
      have hm2 : e ∈ st.edges ∧ (e.1 ≠ a ∧ e.2 ≠ a) := by
        simpa [eraseNode, List.mem_filter] using hm
      refine ⟨hm2.1, ?_⟩
      intro n hn
      rcases List.mem_cons.mp hn with he | hl
      · subst he; exact hm2.2
      · exact hall n hl
    · rintro ⟨hm, hall⟩
      refine ⟨?_, fun n hn => hall n (List.mem_cons_of_mem a hn)⟩
      simp only [eraseNode, List.mem_filter, decide_eq_true_eq]
      exact ⟨hm, hall a (List.mem_cons_self a l)⟩

/-- Claim C3: after the invalidation cleanup deletes the connected
component of a CppNode, no CppEdge row remains whose `from` or `to`
endpoint references a deleted CppNode — on a store whose edges originally
joined existing nodes, every surviving edge still joins surviving nodes. -/
theorem deleteComponent_no_dangling_edges (st : GraphStore) (start : Nat)
    (wf : ∀ e ∈ st.edges, e.1 ∈ st.nodes ∧ e.2 ∈ st.nodes) :
    ∀ e ∈ (deleteComponent st start).edges,
      e.1 ∈ (deleteComponent st start).nodes ∧
        e.2 ∈ (deleteComponent st start).nodes := by
  intro e he
  unfold deleteComponent at he ⊢
  rcases (eraseFold_edges _ st e).mp he with ⟨heg, hnotin⟩
  constructor
  · exact (eraseFold_nodes _ st e.1).mpr ⟨(wf e heg).1, fun n hn => (hnotin n hn).1⟩
  · exact (eraseFold_nodes _ st e.2).mpr ⟨(wf e heg).2, fun n hn => (hnotin n hn).2⟩

/-- Witness for claim C3 on a concrete store: nodes 1,2,3,4 with edges
(1,2) and (3,4); deleting the component of node 1 erases nodes 1 and 2
with their edge, and the surviving edge (3,4) still joins surviving
nodes. -/
theorem deleteComponent_no_dangling_edges_witness :
    (3, 4).1 ∈ (deleteComponent ⟨[1, 2, 3, 4], [(1, 2), (3, 4)]⟩ 1).nodes ∧
      (3, 4).2 ∈ (deleteComponent ⟨[1, 2, 3, 4], [(1, 2), (3, 4)]⟩ 1).nodes := by
  refine deleteComponent_no_dangling_edges ⟨[1, 2, 3, 4], [(1, 2), (3, 4)]⟩ 1
    (by decide) (3, 4) ?_
  show (3, 4) ∈ (List.foldl eraseNode ⟨[1, 2, 3, 4], [(1, 2), (3, 4)]⟩
    ((collectNodeSet [(1, 2), (3, 4)] 1).sort (· ≤ ·))).edges
  have hset : collectNodeSet [(1, 2), (3, 4)] 1 = insert 2 {1} := by
    simp +decide [collectNodeSet, collectGo, enqueueNew, neighborsOf]
  rw [hset]
  have h12 : (insert 2 {1} : Finset Nat) = insert 1 {2} := by decide
  rw [h12]
  rw [show Finset.sort (· ≤ ·) (insert 1 {2}) = [1, 2] from by
    simp +decide [Finset.sort_insert, Finset.sort_singleton]]
  decide

/-! ## Claims about `extractInputOutputs` and the dispatch loop -/

/-- Claim C5 evaluated at the spec's own example: with `-c` and no `-o`
the code computes the object name as
`src.substr(0, src.size() - extension.size() - 1) + ".o"`, and since
`boost::filesystem::extension` already includes the dot, the extra `- 1`
drops the final character of the stem as well: `["gcc","-c","a.cpp"]` in
directory `/d` yields `/d/a.cpp ↦ /d/.o`, not the `/d/a.o` the
specification states. -/
theorem extractInputOutputs_object_name_truncated :
    extractInputOutputs ⟨"/d", ["gcc", "-c", "a.cpp"], "a.cpp"⟩
        = [("/d/a.cpp", "/d/.o")] ∧
      extractInputOutputs ⟨"/d", ["gcc", "-c", "a.cpp"], "a.cpp"⟩
        ≠ [("/d/a.cpp", "/d/a.o")] := by
  exact ⟨by decide, by decide⟩

/-- With every known file still on disk and hash-unchanged, the
change-detection pass classifies nothing. -/
theorem detectChanges_no_change (g : InclusionGraph) :
    ∀ (fs : List DiskFile),
      (∀ r ∈ fs, r.existsOnDisk = true ∧ r.storedHash = some r.diskHash) →
      detectChanges g fs [] = [] := by
  intro fs
  induction fs with
  | nil => intro _; rfl
  | cons r rest ih =>
    intro hall
    rcases hall r (List.mem_cons_self r rest) with ⟨hex, hst⟩
    rw [detectChanges, if_pos hex]
    rw [show (statusOf [] r.file).isSome = false from rfl]
    simp only [Bool.false_eq_true, if_false, hst]
    rw [if_neg (by simp)]
    exact ih (fun q hq => hall q (List.mem_cons_of_mem r hq))

/-- A command whose joined line is already hashed is never dispatched. -/
theorem dispatchLoop_all_seen (parsed : List Nat) :
    ∀ (cmds : List CompileCommand),
      (∀ c ∈ cmds, fnvHash (joinSpace c.CommandLine) ∈ parsed) →
      (dispatchLoop parsed cmds).2 = [] := by
  intro cmds
  induction cmds with
  | nil => intro _; rfl
  | cons c rest ih =>
    intro hall
    rw [dispatchLoop, if_pos (hall c (List.mem_cons_self c rest))]
    exact ih (fun q hq => hall q (List.mem_cons_of_mem c hq))

/-- Claim C6: a second run in incremental mode over an unchanged tree does
no parse work: the invalidation pass classifies nothing, and every compile
command whose joined command line has a persisted BuildAction with the
identical command string hashes into the seeded `_parsedCommandHashes` set
and is skipped without being dispatched, so zero jobs are enqueued. -/
theorem second_run_no_changes_dispatches_nothing (g : InclusionGraph)
    (fs : List DiskFile) (persisted : List String) (cmds : List CompileCommand)
    (hunchanged : ∀ r ∈ fs, r.existsOnDisk = true ∧ r.storedHash = some r.diskHash)
    (hpersisted : ∀ c ∈ cmds, joinSpace c.CommandLine ∈ persisted) :
    detectChanges g fs [] = [] ∧
      (dispatchLoop (initBuildActions persisted) cmds).2 = [] := by
  refine ⟨detectChanges_no_change g fs hunchanged, ?_⟩
  refine dispatchLoop_all_seen (initBuildActions persisted) cmds ?_
  intro c hc
  exact List.mem_map_of_mem fnvHash (hpersisted c hc)

/-- Witness for claim C6: one unchanged file, one command already
persisted as `gcc -c a.cpp`. -/
theorem second_run_no_changes_dispatches_nothing_witness :
    detectChanges [] [⟨1, true, some "x", "x"⟩] [] = [] ∧
      (dispatchLoop (initBuildActions ["gcc -c a.cpp"])
        [⟨"/d", ["gcc", "-c", "a.cpp"], "a.cpp"⟩]).2 = [] :=
  second_run_no_changes_dispatches_nothing [] [⟨1, true, some "x", "x"⟩]
    ["gcc -c a.cpp"] [⟨"/d", ["gcc", "-c", "a.cpp"], "a.cpp"⟩]
    (by decide) (by decide)

/-! ## Lemmas about the file store and `addCompileCommand` -/

theorem lookupFile_updateFile (x p : String) (r : FileRec) :
    ∀ (s : FileStore),
      lookupFile (updateFile s p r) x = if p = x then some r else lookupFile s x := by
  intro s
  induction s with
  | nil =>
    by_cases h : p = x
    · simp [updateFile, lookupFile, h]
    · simp [updateFile, lookupFile, h]
  | cons a rest ih =>
    rcases a with ⟨q, w⟩
    by_cases hq : q = p
    · subst hq
      by_cases hx : q = x
      · simp [updateFile, lookupFile, hx]
      · simp [updateFile, lookupFile, hx]
    · by_cases hx : q = x
      · subst hx
        have hpx : ¬ p = q := fun h => hq h.symm
        simp [updateFile, lookupFile, hq, hpx]
      · simp [updateFile, lookupFile, hq, hx, ih]

theorem getFileRec_updateFile (s : FileStore) (x p : String) (r : FileRec) :
    getFileRec (updateFile s p r) x = if p = x then r else getFileRec s x := by
  unfold getFileRec
  rw [lookupFile_updateFile x p r s]
  by_cases h : p = x
  · simp [h]
  · simp [h]

theorem setParseStatus_status_self (s : FileStore) (p : String) (v : ParseStatus) :
    fileParseStatusOf (setParseStatus s p v) p = v := by
  unfold fileParseStatusOf setParseStatus
  rw [getFileRec_updateFile]
  simp

theorem setParseStatus_status_other (s : FileStore) (p x : String) (v : ParseStatus)
    (h : p ≠ x) : fileParseStatusOf (setParseStatus s p v) x = fileParseStatusOf s x := by
  unfold fileParseStatusOf setParseStatus
  rw [getFileRec_updateFile]
  simp [h]

theorem setParseStatus_type (s : FileStore) (p x : String) (v : ParseStatus) :
    fileTypeOf (setParseStatus s p v) x = fileTypeOf s x := by
  unfold fileTypeOf setParseStatus
  rw [getFileRec_updateFile]
  by_cases h : p = x
  · subst h; simp [getFileRec]
  · simp [h]

theorem setBinaryType_status (s : FileStore) (p x : String) :
    fileParseStatusOf (setBinaryType s p) x = fileParseStatusOf s x := by
  unfold fileParseStatusOf setBinaryType
  by_cases hb : (getFileRec s p).type = FileType.Binary
  · rw [if_pos hb]
  · rw [if_neg hb]
    rw [getFileRec_updateFile]
    by_cases h : p = x
    · subst h; simp [getFileRec]
    · simp [h]

theorem setBinaryType_type_self (s : FileStore) (p : String) :
    fileTypeOf (setBinaryType s p) p = FileType.Binary := by
  unfold fileTypeOf setBinaryType
  by_cases hb : (getFileRec s p).type = FileType.Binary
  · rw [if_pos hb]
    exact hb
  · rw [if_neg hb]
    rw [getFileRec_updateFile]
    simp

theorem setBinaryType_binary_pres (s : FileStore) (p x : String)
    (h : fileTypeOf s x = FileType.Binary) :
    fileTypeOf (setBinaryType s p) x = FileType.Binary := by
  by_cases hx : p = x
  · subst hx; exact setBinaryType_type_self s p
  · unfold fileTypeOf setBinaryType
    by_cases hb : (getFileRec s p).type = FileType.Binary
    · rw [if_pos hb]; exact h
    · rw [if_neg hb]
      rw [getFileRec_updateFile]
      simp only [if_neg hx]
      exact h

/-- The status of a path that is not an input of any remaining pair is
untouched by the rest of the loop. -/
theorem applyPairs_status_pres (action : String) (err : Bool) (x : String) :
    ∀ (pairs : List (String × String)) (store : FileStore),
      x ∉ pairs.map Prod.fst →
      fileParseStatusOf (applyPairs action err pairs store).1 x = fileParseStatusOf store x := by
  intro pairs
  induction pairs with
  | nil => intro store _; rfl
  | cons q rest ih =>
    intro store hx
    have hxq : q.1 ≠ x := by
      intro he
      exact hx (by simp [← he])
    have hxrest : x ∉ rest.map Prod.fst := by
      intro hm
      exact hx (by simp [hm])
    rw [applyPairs]
    rw [ih _ hxrest]
    rw [setBinaryType_status, setParseStatus_status_other _ _ _ _ hxq]

/-- Binary file types, once set, survive the rest of the loop. -/
theorem applyPairs_binary_pres (action : String) (err : Bool) (x : String) :
    ∀ (pairs : List (String × String)) (store : FileStore),
      fileTypeOf store x = FileType.Binary →
      fileTypeOf (applyPairs action err pairs store).1 x = FileType.Binary := by
  intro pairs
  induction pairs with
  | nil => intro store h; exact h
  | cons q rest ih =>
    intro store h
    rw [applyPairs]
    refine ih _ ?_
    refine setBinaryType_binary_pres _ _ _ ?_
    rw [setParseStatus_type]
    exact h

/-- The per-pair effects of the `addCompileCommand` loop, for pairwise
distinct input paths. -/
theorem applyPairs_spec (action : String) (err : Bool) :
    ∀ (pairs : List (String × String)) (store : FileStore),
      (pairs.map Prod.fst).Nodup → ∀ p ∈ pairs,
        fileParseStatusOf (applyPairs action err pairs store).1 p.1 =
          (if err then ParseStatus.PSPartiallyParsed else ParseStatus.PSFullyParsed) ∧
        fileTypeOf (applyPairs action err pairs store).1 p.2 = FileType.Binary ∧
        (p.1, action) ∈ (applyPairs action err pairs store).2.1 ∧
        (p.2, action) ∈ (applyPairs action err pairs store).2.2 := by
  intro pairs
  induction pairs with
  | nil => intro store _ p hp; simp at hp
  | cons q rest ih =>
    intro store hnodup p hp
    have hnodup2 : (q.1 :: rest.map Prod.fst).Nodup := by
      simpa only [List.map_cons] using hnodup
    have hnd2 := List.nodup_cons.mp hnodup2
    rcases List.mem_cons.mp hp with he | hm
    · subst he
      refine ⟨?_, ?_, ?_, ?_⟩
      · rw [applyPairs]
        rw [applyPairs_status_pres action err p.1 rest _ hnd2.1]
        rw [setBinaryType_status, setParseStatus_status_self]
      · rw [applyPairs]
        exact applyPairs_binary_pres action err p.2 rest _
          (setBinaryType_type_self _ p.2)
      · rw [applyPairs]
        exact List.mem_cons_self _ _
      · rw [applyPairs]
        exact List.mem_cons_self _ _
    · have hspec := ih (setBinaryType (setParseStatus store q.1
          (if err then ParseStatus.PSPartiallyParsed else ParseStatus.PSFullyParsed)) q.2)
        hnd2.2 p hm
      refine ⟨?_, ?_, ?_, ?_⟩
      · rw [applyPairs]; exact hspec.1
      · rw [applyPairs]; exact hspec.2.1
      · rw [applyPairs]; exact List.mem_cons_of_mem _ hspec.2.2.1
      · rw [applyPairs]; exact List.mem_cons_of_mem _ hspec.2.2.2

theorem memStr_iff (x : String) : ∀ (l : List String), memStr x l = true ↔ x ∈ l := by
  intro l
  induction l with
  | nil => simp [memStr]
  | cons y ys ih =>
    by_cases h : y = x
    · subst h
      simp [memStr]
    · simp only [memStr, if_neg h, ih, List.mem_cons]
      constructor
      · exact Or.inr
      · rintro (he | hm)
        · exact absurd he.symm h
        · exact hm

theorem insertSource_nodup (l : List String) (s : String) (h : l.Nodup) :
    (insertSource l s).Nodup := by
  unfold insertSource
  by_cases hm : memStr s l
  · rw [if_pos hm]; exact h
  · rw [if_neg hm]
    refine List.Nodup.append h (List.nodup_singleton s) ?_
    intro a ha hb
    have : a = s := by simpa using hb
    subst this
    exact hm ((memStr_iff a l).mpr ha)

theorem insertSource_mem_self (l : List String) (s : String) :
    s ∈ insertSource l s := by
  unfold insertSource
  by_cases hm : memStr s l
  · rw [if_pos hm]; exact (memStr_iff s l).mp hm
  · rw [if_neg hm]; simp

theorem insertSource_mem_mono (l : List String) (s x : String) (h : x ∈ l) :
    x ∈ insertSource l s := by
  unfold insertSource
  by_cases hm : memStr s l
  · rw [if_pos hm]; exact h
  · rw [if_neg hm]; exact List.mem_append_left _ h

/-- One scan step keeps the sources list duplicate-free. -/
theorem scanStep_sources_nodup (dir : String) (acc : ScanAcc) (arg : String)
    (h : acc.sources.Nodup) : (scanStep dir acc arg).sources.Nodup := by
  unfold scanStep
  rcases acc with ⟨hc, srcs, outp, stt⟩
  cases stt with
  | OParam => exact h
  | None =>
    by_cases h1 : isSourceFile arg && !isNonSourceFlag arg
    · simpa [h1] using insertSource_nodup srcs _ h
    · by_cases h2 : arg = "-c"
      · simp [h1, h2]; exact h
      · by_cases h3 : arg = "-o"
        · simp [h1, h2, h3]; exact h
        · simp [h1, h2, h3]; exact h

/-- One scan step never drops a recorded source. -/
theorem scanStep_sources_mono (dir : String) (acc : ScanAcc) (arg x : String)
    (h : x ∈ acc.sources) : x ∈ (scanStep dir acc arg).sources := by
  unfold scanStep
  rcases acc with ⟨hc, srcs, outp, stt⟩
  cases stt with
  | OParam => exact h
  | None =>
    by_cases h1 : isSourceFile arg && !isNonSourceFlag arg
    · simpa [h1] using insertSource_mem_mono srcs _ x h
    · by_cases h2 : arg = "-c"
      · simp [h1, h2]; exact h
      · by_cases h3 : arg = "-o"
        · simp [h1, h2, h3]; exact h
        · simp [h1, h2, h3]; exact h

theorem scanFold_sources_nodup (dir : String) :
    ∀ (args : List String) (acc : ScanAcc), acc.sources.Nodup →
      (args.foldl (scanStep dir) acc).sources.Nodup := by
  intro args
  induction args with
  | nil => intro acc h; exact h
  | cons a args ih =>
    intro acc h
    rw [List.foldl_cons]
    exact ih _ (scanStep_sources_nodup dir acc a h)

theorem scanFold_sources_mono (dir : String) (x : String) :
    ∀ (args : List String) (acc : ScanAcc), x ∈ acc.sources →
      x ∈ (args.foldl (scanStep dir) acc).sources := by
  intro args
  induction args with
  | nil => intro acc h; exact h
  | cons a args ih =>
    intro acc h
    rw [List.foldl_cons]
    exact ih _ (scanStep_sources_mono dir acc a x h)

theorem map_pair_fst (f : String → String) :
    ∀ (l : List String), (l.map (fun src => (src, f src))).map Prod.fst = l := by
  intro l
  induction l with
  | nil => rfl
  | cons a l ih => simp only [List.map_cons, ih]

/-- The keys of the `inToOut` map are exactly the scanned sources. -/
theorem extractInputOutputs_keys (c : CompileCommand) :
    (extractInputOutputs c).map Prod.fst
      = (scanArgs c.Directory c.CommandLine).sources := by
  unfold extractInputOutputs
  by_cases h : ((scanArgs c.Directory c.CommandLine).output = ""
      && (scanArgs c.Directory c.CommandLine).hasCParam) = true
  · rw [if_pos h]
    exact map_pair_fst _ _
  · rw [if_neg h]
    exact map_pair_fst _ _

theorem extractInputOutputs_keys_nodup (c : CompileCommand) :
    ((extractInputOutputs c).map Prod.fst).Nodup := by
  rw [extractInputOutputs_keys]
  exact scanFold_sources_nodup c.Directory c.CommandLine _ List.nodup_nil

/-- Claim C7: for every dispatched job, the worker returns the external
tool's result without aborting, and for every (input, output) pair of the
command: the input file's parse status is set to PartiallyParsed when the
parse failed (nonzero result) and to FullyParsed when it succeeded, the
output file's type is set to Binary, and BuildSource / BuildTarget rows
referencing the persisted build action are recorded. -/
theorem worker_records_outcome (store : FileStore) (command : CompileCommand)
    (toolResult : Int) (p : String × String)
    (hp : p ∈ extractInputOutputs command) :
    (worker store command true toolResult).1 = toolResult ∧
    fileParseStatusOf (worker store command true toolResult).2.1 p.1 =
      (if toolResult ≠ 0 then ParseStatus.PSPartiallyParsed
        else ParseStatus.PSFullyParsed) ∧
    fileTypeOf (worker store command true toolResult).2.1 p.2 = FileType.Binary ∧
    (p.1, (addBuildAction command).command) ∈ (worker store command true toolResult).2.2.1 ∧
    (p.2, (addBuildAction command).command) ∈ (worker store command true toolResult).2.2.2 := by
  have hspec := applyPairs_spec (addBuildAction command).command (toolResult ≠ 0)
    (extractInputOutputs command) store (extractInputOutputs_keys_nodup command) p hp
  simp only [decide_eq_true_eq] at hspec
  unfold worker
  rw [if_pos rfl]
  exact ⟨rfl, hspec.1, hspec.2.1, hspec.2.2.1, hspec.2.2.2⟩

/-- Witness for claim C7: the failed compile of `x.cpp` marks the input
PartiallyParsed, the (truncated) object target Binary, and records both
rows. -/
theorem worker_records_outcome_witness :
    (worker [] ⟨"/w", ["g++", "-c", "x.cpp"], "x.cpp"⟩ true 2).1 = 2 ∧
    fileParseStatusOf (worker [] ⟨"/w", ["g++", "-c", "x.cpp"], "x.cpp"⟩ true 2).2.1
      "/w/x.cpp" = (if (2 : Int) ≠ 0 then ParseStatus.PSPartiallyParsed
        else ParseStatus.PSFullyParsed) ∧
    fileTypeOf (worker [] ⟨"/w", ["g++", "-c", "x.cpp"], "x.cpp"⟩ true 2).2.1
      "/w/.o" = FileType.Binary ∧
    ("/w/x.cpp", (addBuildAction ⟨"/w", ["g++", "-c", "x.cpp"], "x.cpp"⟩).command)
      ∈ (worker [] ⟨"/w", ["g++", "-c", "x.cpp"], "x.cpp"⟩ true 2).2.2.1 ∧
    ("/w/.o", (addBuildAction ⟨"/w", ["g++", "-c", "x.cpp"], "x.cpp"⟩).command)
      ∈ (worker [] ⟨"/w", ["g++", "-c", "x.cpp"], "x.cpp"⟩ true 2).2.2.2 :=
  worker_records_outcome [] ⟨"/w", ["g++", "-c", "x.cpp"], "x.cpp"⟩ 2
    ("/w/x.cpp", "/w/.o") (by decide)

/-! ## Claims about `parse` and transaction granularity -/

/-- Once `success` is false the input loop no longer dispatches anything
and can never return true. -/
theorem parseLoop_false (parsed : List Nat) :
    ∀ (inputs : List ParseInput),
      (parseLoop parsed false inputs).1 = false ∧
        ∀ l ∈ (parseLoop parsed false inputs).2, l = [] := by
  intro inputs
  induction inputs with
  | nil => exact ⟨rfl, by simp [parseLoop]⟩
  | cons inp rest ih =>
    by_cases hreg : inp.isRegularFile = true
    · rw [parseLoop, if_pos hreg]
      refine ⟨ih.1, ?_⟩
      intro l hl
      rcases List.mem_cons.mp (by simpa using hl) with he | hm
      · exact he
      · exact ih.2 l hm
    · rw [parseLoop, if_neg hreg]
      exact ih

/-- Counterexample to claim C8 as stated: two regular-file inputs, the
first failing to load its compilation database, the second loading fine
and holding one command.  The run returns false, but the second input is
never processed — `success = success && parseByJson(...)` short-circuits —
so its job list stays empty instead of containing its command. -/
theorem parse_skips_remaining_inputs_counterexample :
    parseLoop [] true
        [⟨true, false, []⟩,
          ⟨true, true, [⟨"/d", ["gcc", "-c", "a.cpp"], "a.cpp"⟩]⟩]
      = (false, [[], []]) := by decide

/-- Claim C8 (amended): if loading the compilation database of some
regular-file input fails, the top-level parse returns false; the inputs
before the failing one are processed normally, but — by C++ short-circuit
evaluation of `success && parseByJson(...)` — every regular-file input
after the failure is skipped and dispatches nothing. -/
theorem parse_false_and_short_circuit (parsed : List Nat)
    (inputs : List ParseInput) :
    ((∃ inp ∈ inputs, inp.isRegularFile = true ∧ inp.loadOk = false) →
        (parseLoop parsed true inputs).1 = false) ∧
      (∀ l ∈ (parseLoop parsed false inputs).2, l = []) := by
  refine ⟨?_, (parseLoop_false parsed inputs).2⟩
  induction inputs generalizing parsed with
  | nil =>
    rintro ⟨inp, hmem, _⟩
    simp at hmem
  | cons inp rest ih =>
    rintro ⟨w, hmem, hwreg, hwload⟩
    by_cases hreg : inp.isRegularFile = true
    · rw [parseLoop, if_pos hreg]
      by_cases hload : inp.loadOk = true
      · have hw : w ∈ rest := by
          rcases List.mem_cons.mp hmem with he | hm
          · subst he
            rw [hload] at hwload
            cases hwload
          · exact hm
        have hpb : (parseByJsonModel parsed inp).1 = true := by
          unfold parseByJsonModel
          rw [if_pos hload]
        rw [if_pos rfl]
        simp only [hpb]
        exact ih _ ⟨w, hw, hwreg, hwload⟩
      · have hload2 : inp.loadOk = false := by
          cases hl : inp.loadOk
          · rfl
          · exact absurd hl hload
        have hpb : (parseByJsonModel parsed inp).1 = false := by
          unfold parseByJsonModel
          rw [if_neg (by rw [hload2]; exact Bool.false_ne_true)]
        rw [if_pos rfl]
        simp only [hpb]
        exact (parseLoop_false _ rest).1
    · rw [parseLoop, if_neg hreg]
      have hw : w ∈ rest := by
        rcases List.mem_cons.mp hmem with he | hm
        · subst he
          exact absurd hwreg hreg
        · exact hm
      exact ih _ ⟨w, hw, hwreg, hwload⟩

/-- Witness for the amended claim C8: one regular input whose database
fails to load. -/
theorem parse_false_and_short_circuit_witness :
    (parseLoop [] true [(⟨true, false, []⟩ : ParseInput)]).1 = false ∧
      ∀ l ∈ (parseLoop [] false [(⟨true, false, []⟩ : ParseInput)]).2, l = [] :=
  ⟨(parse_false_and_short_circuit [] [⟨true, false, []⟩]).1
      ⟨⟨true, false, []⟩, by simp, rfl, rfl⟩,
    (parse_false_and_short_circuit [] [⟨true, false, []⟩]).2⟩

/-- Counterexample to claim C9 as stated: two files (1 and 2) are
classified for cleanup, and the store fails on file 2's cleanup operation.
The source's single wrapping transaction aborts as one unit, so file 1's
already-executed cleanup is rolled back too (the store still holds both
files); had each file's cleanup been its own transaction, file 1's cleanup
would have remained committed (only file 2 surviving). -/
theorem cleanup_single_transaction_counterexample :
    runTxs (fun op => op == CleanupOp.removeFile 2) [1, 2]
        (incrementalTransactions [1, 2]) = [1, 2] ∧
      runTxs (fun op => op == CleanupOp.removeFile 2) [1, 2]
        (perFileTransactions [1, 2]) = [2] := by decide

/-- Whatever the cleanup operations do, they only shrink the file table. -/
theorem applyOp_fold_subset (x : Nat) :
    ∀ (ops : List CleanupOp) (store : List Nat),
      x ∈ ops.foldl applyOp store → x ∈ store := by
  intro ops
  induction ops with
  | nil => intro store h; exact h
  | cons op rest ih =>
    intro store h
    have h2 := ih _ h
    cases op with
    | removeFile f =>
      have := List.mem_of_mem_filter h2
      exact this

/-- Removing every classified file removes each of them for good. -/
theorem removeFile_fold_removes (x : Nat) :
    ∀ (l : List Nat) (store : List Nat), x ∈ l →
      x ∉ (l.map CleanupOp.removeFile).foldl applyOp store := by
  intro l
  induction l with
  | nil => intro store h; simp at h
  | cons a rest ih =>
    intro store hx hmem
    rcases List.mem_cons.mp hx with he | hm
    · subst he
      rw [List.map_cons, List.foldl_cons] at hmem
      have h2 := applyOp_fold_subset x _ _ hmem
      simp [applyOp, List.mem_filter] at h2
    · exact ih _ hm (by simpa using hmem)

/-- Claim C9 (amended): the source wraps the entire invalidation cleanup —
every classified file's unit of work — in one single transaction, so the
pass is atomic as a whole: if the store fails on any one file's cleanup
operation, no file's cleanup remains committed (the store is exactly as
before the pass, not just the failing file's unit rolled back); if nothing
fails, every classified file is removed. -/
theorem incremental_cleanup_single_transaction (store : List Nat)
    (classified : List Nat) (failing : CleanupOp → Bool) :
    ((classified.map CleanupOp.removeFile).any failing = true →
        runTxs failing store (incrementalTransactions classified) = store) ∧
      ((classified.map CleanupOp.removeFile).any failing = false →
        ∀ f ∈ classified, f ∉ runTxs failing store (incrementalTransactions classified)) := by
  constructor
  · intro hfail
    unfold runTxs incrementalTransactions
    rw [List.foldl_cons, List.foldl_nil]
    unfold runTx
    rw [if_pos hfail]
  · intro hok f hf
    unfold runTxs incrementalTransactions
    rw [List.foldl_cons, List.foldl_nil]
    unfold runTx
    rw [if_neg (by rw [hok]; exact Bool.false_ne_true)]
    exact removeFile_fold_removes f classified store hf

/-- Witness for the amended claim C9, applying it to a failing run (the
whole pass rolls back) and to a clean run (every classified file is
removed). -/
theorem incremental_cleanup_single_transaction_witness :
    runTxs (fun op => op == CleanupOp.removeFile 2) [1, 2]
        (incrementalTransactions [1, 2]) = [1, 2] ∧
      ∀ f ∈ [5], f ∉ runTxs (fun _ => false) [5] (incrementalTransactions [5]) :=
  ⟨(incremental_cleanup_single_transaction [1, 2] [1, 2]
      (fun op => op == CleanupOp.removeFile 2)).1 (by decide),
    (incremental_cleanup_single_transaction [5] [5] (fun _ => false)).2 (by decide)⟩

/-- Counterexample to claim C10 as stated: the argument `-Wl,a.SO` has
extension `.SO`, which matches `.so` up to letter case — `isSourceFile`
accepts it — yet it is not treated as an input source file, because
`extractInputOutputs` also requires `isNonSourceFlag` to reject the
argument and `-Wl,`-prefixed arguments are excluded. -/
theorem linker_flag_not_input_counterexample :
    lowerStr (pathExtension "-Wl,a.SO") = ".so" ∧
      isSourceFile "-Wl,a.SO" = true ∧
      extractInputOutputs ⟨"/d", ["gcc", "-c", "-Wl,a.SO"], "x"⟩ = [] := by
  decide

/-- Claim C10 (amended): source-extension recognition is case-insensitive —
an argument whose lowercased extension lies in the recognized list
(`A.CPP`, `lib.SO`, …) is treated as an input source file, provided it does
not begin with the linker pass-through prefix `-Wl,` and the scanner is not
consuming it as the argument of `-o`; its absolutised path is then among
the input keys of the `extractInputOutputs` map. -/
theorem case_insensitive_extension_recognized_as_input (dir fn : String)
    (pre post : List String) (arg : String)
    (hext : lowerStr (pathExtension arg) ∈ cppExts)
    (hflag : isNonSourceFlag arg = false)
    (hstate : (scanArgs dir pre).state = ScanState.None) :
    absolutePath dir arg ∈
      (extractInputOutputs ⟨dir, pre ++ arg :: post, fn⟩).map Prod.fst := by
  rw [extractInputOutputs_keys]
  show absolutePath dir arg ∈
    (List.foldl (scanStep dir) ⟨false, [], "", ScanState.None⟩ (pre ++ arg :: post)).sources
  rw [List.foldl_append, List.foldl_cons]
  refine scanFold_sources_mono dir _ post _ ?_
  have hsf : isSourceFile arg = true := (memStr_iff _ cppExts).mpr hext
  have key : ∀ (acc : ScanAcc), acc.state = ScanState.None →
      absolutePath dir arg ∈ (scanStep dir acc arg).sources := by
    intro acc hst
    rcases acc with ⟨hc, srcs, outp, stt⟩
    simp only [] at hst
    subst hst
    unfold scanStep
    have hcond : (isSourceFile arg && !isNonSourceFlag arg) = true := by
      rw [hsf, hflag]
      rfl
    simp only [hcond, if_true]
    exact insertSource_mem_self srcs _
  exact key _ hstate

/-- Witness for the amended claim C10: `A.CPP` after `gcc -c` is recognized
as an input despite its upper-case extension. -/
theorem case_insensitive_extension_recognized_as_input_witness :
    absolutePath "/d" "A.CPP" ∈
      (extractInputOutputs ⟨"/d", ["gcc", "-c"] ++ "A.CPP" :: [], "x"⟩).map Prod.fst :=
  case_insensitive_extension_recognized_as_input "/d" "x" ["gcc", "-c"] [] "A.CPP"
    (by decide) (by decide) (by decide)
